import Mathlib

/-!
Verification of a probabilistic-suffix-tree (PST) library (src/pst.py).

The embedding mirrors the source:
* `Node` (pst.py class `Node`): an event label (`name`), an ordered
  association list of children with occurrence counts (the Python insertion
  ordered dict `children`), and the `has_children` flag.
* `ENode`: a `Node` after the evaluation pass has attached a derived
  probability to every child entry (the Python code stores `'p'` into the
  same dict; here evaluation is a pure map from `Node` to `ENode`).
* `PST` / `EPST` (class `PST` before / after `evaluate_probability`).
* `PST_model` (class `PST_model`): configured depth plus the list of
  evaluated trees that queries walk.

Labels are strings, counts are naturals, probabilities are exact rationals
(Python uses floats; the division `count/cnt_sum` is modelled exactly).
The one fatal behaviour in the query path (`subchain[0]` on an empty list,
an `IndexError`) is modelled with `Except`; every non-fatal outcome is an
`Except.ok`.  The Python `parent` back-reference and `level` field are
used only for diagnostics and are not part of the data model here.
-/

inductive Node where
  | mk (name : String) (children : List (Node × Nat)) (has_children : Bool)

def Node.name : Node → String
  | ⟨n, _, _⟩ => n

def Node.children : Node → List (Node × Nat)
  | ⟨_, cs, _⟩ => cs

def Node.has_children : Node → Bool
  | ⟨_, _, h⟩ => h

/-- First child entry (child, count) whose label matches, as scanned by
`Node.get_child_by_name` (pst.py lines 46-54): a linear scan over the
insertion-ordered children returning the first name match. -/
def childEntry : List (Node × Nat) → String → Option (Node × Nat)
  | [], _ => none
  | (c, k) :: tl, e => if c.name = e then some (c, k) else childEntry tl e

/-- `Node.get_child_by_name` (pst.py lines 46-54). -/
def Node.get_child_by_name (n : Node) (e : String) : Option Node :=
  (childEntry n.children e).map Prod.fst

/-- Increment the count of the first child entry with the given label,
leaving the child node itself unchanged
(`self.children[child]['count'] += 1`, pst.py line 39). -/
def incFirst : List (Node × Nat) → String → List (Node × Nat)
  | [], _ => []
  | (c, k) :: tl, e => if c.name = e then (c, k + 1) :: tl else (c, k) :: incFirst tl e

/-- `Node.add_child` (pst.py lines 31-44).  Returns the updated parent
together with the node the Python method returns: the existing same-label
child (whose count was incremented, the candidate being discarded), or the
candidate itself, freshly installed at the end of the dict with count 1.
`has_children` is set in both branches (line 36). -/
def Node.add_child (self : Node) (node : Node) : Node × Node :=
  match self.get_child_by_name node.name with
  | some child =>
      (Node.mk self.name (incFirst self.children node.name) true, child)
  | none =>
      (Node.mk self.name (self.children ++ [(node, 1)]) true, node)

/-- Replace the first child entry with the given label by applying `f` to
the child and incrementing its count.  Used to express the imperative
pattern of `PST.add_subchain` (pst.py lines 142-145): `add_child` mutates
the matched child entry in place and the loop then keeps mutating that
same child object, which in a pure setting is a recursive rebuild of the
matched entry. -/
def updateFirst : List (Node × Nat) → String → (Node → Node) → List (Node × Nat)
  | [], _, _ => []
  | (c, k) :: tl, e, f => if c.name = e then (f c, k + 1) :: tl else (c, k) :: updateFirst tl e f

/-- The loop of `PST.add_subchain` (pst.py lines 142-145): starting at a
node, for each element `node = node.add_child(Node(parent=node, name=element))`,
i.e. merge a fresh node for the element into the current node's children
and descend into the returned canonical child.  The two `add_child`
branches appear as `updateFirst` (label already present: bump the count,
keep descending inside the existing child) and as an append of a fresh
count-1 subtree (label absent). -/
def Node.add_subchain_aux : Node → List String → Node
  | n, [] => n
  | n, e :: rest =>
    match childEntry n.children e with
    | some _ =>
        Node.mk n.name (updateFirst n.children e (fun c => c.add_subchain_aux rest)) true
    | none =>
        Node.mk n.name (n.children ++ [((Node.mk e [] false).add_subchain_aux rest, 1)]) true

/-- The constructor loop of `PST.__init__` (pst.py lines 131-136): a single
linear path of nodes, one per element, each the sole child (count 1) of
the previous one. -/
def Node.init_path : String → List String → Node
  | e, [] => Node.mk e [] false
  | e, f :: tl => Node.mk e [(Node.init_path f tl, 1)] true

/-- The tree `PST` before its evaluation pass (pst.py lines 102-147). -/
structure PST where
  root : Node
  name : String
  depth : Nat
  power : Nat

/-- `PST.__init__` (pst.py lines 125-136) on the nonempty initialising
chain `c0 :: rest` (on an empty chain the Python constructor raises, and
`fit` only ever constructs trees from windows it routes by their first
element). -/
def PST.init_tree (c0 : String) (rest : List String) : PST :=
  { root := Node.init_path c0 rest
    name := c0
    depth := rest.length + 1
    power := 0 }

/-- `PST.add_subchain` (pst.py lines 138-147): walk `subchain[1:]` from the
root, merging/descending, then increment `power`. -/
def PST.add_subchain (t : PST) (subchain : List String) : PST :=
  { t with root := t.root.add_subchain_aux subchain.tail, power := t.power + 1 }

/-- A node after `evaluate_probability` has attached the derived transition
probability `count/cnt_sum` to every child entry (pst.py lines 149-166).
Entries are (child, count, probability). -/
inductive ENode where
  | mk (name : String) (children : List (ENode × Nat × ℚ)) (has_children : Bool)

def ENode.name : ENode → String
  | ⟨n, _, _⟩ => n

def ENode.children : ENode → List (ENode × Nat × ℚ)
  | ⟨_, cs, _⟩ => cs

def ENode.has_children : ENode → Bool
  | ⟨_, _, h⟩ => h

/-- `sum(i['count'] for i in node.children.values())` (pst.py line 163). -/
def countSum : List (Node × Nat) → Nat
  | [] => 0
  | (_, k) :: tl => k + countSum tl

mutual

/-- `PST.evaluate_node_probability` (pst.py lines 155-166): every child of
every node gets probability `count / cnt_sum` where `cnt_sum` is the sum
of the sibling counts at that node; the recursion then descends into every
child.  (The early return for childless nodes is the `[]` case of
`evaluate_children_probability`.) -/
def evaluate_node_probability : Node → ENode
  | ⟨name, cs, hc⟩ => ⟨name, evaluate_children_probability (countSum cs) cs, hc⟩

def evaluate_children_probability : Nat → List (Node × Nat) → List (ENode × Nat × ℚ)
  | _, [] => []
  | s, (c, k) :: tl =>
      (evaluate_node_probability c, k, (k : ℚ) / (s : ℚ)) :: evaluate_children_probability s tl

end

/-- The tree after its evaluation pass. -/
structure EPST where
  root : ENode
  name : String
  depth : Nat
  power : Nat

/-- `PST.evaluate_probability` (pst.py lines 149-153). -/
def PST.evaluate_probability (t : PST) : EPST :=
  { root := evaluate_node_probability t.root
    name := t.name
    depth := t.depth
    power := t.power }

/-- First child entry (child, count, probability) with a matching label in
an evaluated node's children: the scan of `Node.get_child_by_name` together
with the dict access `node.children[child]` that reads the entry's data
(pst.py lines 46-54, 74-76, 323). -/
def einfoLookup : List (ENode × Nat × ℚ) → String → Option (ENode × Nat × ℚ)
  | [], _ => none
  | (c, k, p) :: tl, e => if c.name = e then some (c, k, p) else einfoLookup tl e

/-- `Node.get_child_by_name` on an evaluated node. -/
def ENode.get_child_by_name (n : ENode) (e : String) : Option ENode :=
  (einfoLookup n.children e).map Prod.fst

/-- The derived probability stored on the edge to the child with the given
label, if any (reads `info['p']`). -/
def ENode.childProb (n : ENode) (e : String) : Option ℚ :=
  (einfoLookup n.children e).map (fun x => x.2.2)

/-- The loop of `Node.get_node_distance` (pst.py lines 68-81): running
accumulator `distance`, and for each of this node's children the
contribution is `p1 ** 2` when the other node is `None` or has no
same-labelled child, and `(p1 - p2) ** 2` when it has one. -/
def node_distance_loop (node : Option ENode) : ℚ → List (ENode × Nat × ℚ) → ℚ
  | d, [] => d
  | d, (c1, _, p1) :: tl =>
      node_distance_loop node
        (d + match node with
             | none => p1 ^ 2
             | some n2 =>
               match einfoLookup n2.children c1.name with
               | some (_, _, p2) => (p1 - p2) ^ 2
               | none => p1 ^ 2)
        tl

/-- `Node.get_node_distance` (pst.py lines 56-81): 0 when `has_children`
is not set, otherwise the looped sum of squared probability differences
over this node's children only. -/
def ENode.get_node_distance (self : ENode) (node : Option ENode) : ℚ :=
  if self.has_children = false then 0 else node_distance_loop node 0 self.children

mutual

/-- `PST.get_node_distance` (pst.py lines 219-249): if `node1` has no
children return the accumulated distance; otherwise add the node-level
distance of `node1` to `node2`, then recurse into every child of `node1`,
pairing it with the same-labelled child of `node2` when `node2` is present
and has one, and with `None` otherwise. -/
def EPST.get_node_distance : ENode → Option ENode → ℚ → ℚ
  | ⟨nm, cs, hc⟩, node2, distance =>
    if hc = false then distance
    else
      EPST.tree_distance_loop cs node2
        (distance + (ENode.mk nm cs hc).get_node_distance node2)

/-- The `for child1 in node1.children` loop of `PST.get_node_distance`
(pst.py lines 238-247). -/
def EPST.tree_distance_loop : List (ENode × Nat × ℚ) → Option ENode → ℚ → ℚ
  | [], _, d => d
  | (c1, _, _) :: tl, node2, d =>
      EPST.tree_distance_loop tl node2
        (match node2 with
         | none => EPST.get_node_distance c1 none d
         | some n2 =>
           match n2.get_child_by_name c1.name with
           | some c2 => EPST.get_node_distance c1 (some c2) d
           | none => EPST.get_node_distance c1 none d)

end

/-- `PST.get_distance` (pst.py lines 211-217). -/
def EPST.get_distance (t1 t2 : EPST) : ℚ :=
  EPST.get_node_distance t1.root (some t2.root) 0

/-- `PST_model` (pst.py lines 251-349) as it stands when queries run: a
configured depth and the trees, which `fit` has evaluated. -/
structure PST_model where
  _depth : Nat
  trees : List EPST

/-- The scan of `PST_model.get_PST_by_name` (pst.py lines 293-301): first
tree in insertion order whose name matches, else `None`. -/
def findTree : List EPST → String → Option EPST
  | [], _ => none
  | t :: tl, e => if t.name = e then some t else findTree tl e

/-- `PST_model.get_PST_by_name` (pst.py lines 293-301). -/
def PST_model.get_PST_by_name (m : PST_model) (name : String) : Option EPST :=
  findTree m.trees name

/-- The walk of `PST_model.get_event_prob` (pst.py lines 315-327): consume
the elements after the first, returning 0 at the first missing child and
otherwise multiplying the running probability by each traversed edge's
derived probability. -/
def PST_model.walk_prob : ENode → List String → ℚ → ℚ
  | _, [], prob => prob
  | node, e :: rest, prob =>
    match einfoLookup node.children e with
    | none => 0
    | some (child, _, p) => PST_model.walk_prob child rest (prob * p)

/-- `PST_model.get_event_prob` (pst.py lines 303-331).  A window of the
wrong length yields the invalid sentinel (`return None`, modelled
`Except.ok none`); a correct-length window whose first element has no
tree yields probability 0; otherwise the walk from the tree's root yields
the running product.  The only fatal path is `subchain[0]` on an empty
window (depth 0), an `IndexError`, modelled as `Except.error`. -/
def PST_model.get_event_prob (m : PST_model) (subchain : List String) :
    Except String (Option ℚ) :=
  if subchain.length ≠ m._depth then Except.ok none
  else
    match subchain with
    | [] => Except.error "list index out of range"
    | e :: rest =>
      match m.get_PST_by_name e with
      | some pst => Except.ok (some (PST_model.walk_prob pst.root rest 1))
      | none => Except.ok (some 0)

/-- `PST_model._get_subchains` (pst.py lines 341-349): the slices
`chain[i:i+depth]` for `i in range(len(chain) - depth)` (an empty range
when the chain is no longer than the depth). -/
def PST_model._get_subchains (m : PST_model) (chain : List String) : List (List String) :=
  (List.range (chain.length - m._depth)).map (fun i => (chain.drop i).take m._depth)

/-- The `for subchain in self._get_subchains(chain)` loop of
`PST_model.get_chain_prob` (pst.py lines 336-337), appending each window's
`get_event_prob` result in order; a raised `IndexError` aborts the whole
call. -/
def chain_prob_loop (m : PST_model) : List (List String) → Except String (List (Option (Option ℚ)))
  | [] => Except.ok []
  | s :: tl =>
    match m.get_event_prob s with
    | Except.error msg => Except.error msg
    | Except.ok v =>
      match chain_prob_loop m tl with
      | Except.error msg => Except.error msg
      | Except.ok vs => Except.ok (some v :: vs)

/-- `PST_model.get_chain_prob` (pst.py lines 333-339):
`result = [np.NaN] * self._depth` (the `none` sentinel entries here)
followed by one appended `get_event_prob` result per window. -/
def PST_model.get_chain_prob (m : PST_model) (chain : List String) :
    Except String (List (Option (Option ℚ))) :=
  match chain_prob_loop m (m._get_subchains chain) with
  | Except.error msg => Except.error msg
  | Except.ok vs => Except.ok (List.replicate m._depth none ++ vs)

/-- The labels of a children list, in insertion order. -/
def namesOf (cs : List (Node × Nat)) : List String :=
  cs.map (fun p => p.1.name)

/-- The labels of an evaluated node's children list, in insertion order. -/
def enamesOf (cs : List (ENode × Nat × ℚ)) : List String :=
  cs.map (fun p => p.1.name)

/-- Membership of a string in a list, decidably. -/
def containsStr : List String → String → Bool
  | [], _ => false
  | x :: tl, e => (x = e) || containsStr tl e

/-- Pairwise-distinct strings, decidably. -/
def nodupNames : List String → Bool
  | [] => true
  | x :: tl => (!(containsStr tl x)) && nodupNames tl

mutual

/-- The duplicate-free-siblings invariant: at every node of the tree, the
children carry pairwise distinct labels. -/
def Node.wf : Node → Bool
  | ⟨_, cs, _⟩ => nodupNames (namesOf cs) && childrenWf cs

def childrenWf : List (Node × Nat) → Bool
  | [] => true
  | (c, _) :: tl => Node.wf c && childrenWf tl

end

mutual

/-- Every child count in the tree is a positive integer. -/
def Node.posCounts : Node → Bool
  | ⟨_, cs, _⟩ => childrenPos cs

def childrenPos : List (Node × Nat) → Bool
  | [] => true
  | (c, k) :: tl => (decide (1 ≤ k)) && c.posCounts && childrenPos tl

end

mutual

/-- The duplicate-free-siblings invariant on an evaluated tree. -/
def ENode.ewf : ENode → Bool
  | ⟨_, cs, _⟩ => nodupNames (enamesOf cs) && echildrenWf cs

def echildrenWf : List (ENode × Nat × ℚ) → Bool
  | [] => true
  | (c, _, _) :: tl => ENode.ewf c && echildrenWf tl

end

/-- Sum of the derived probabilities of a children list. -/
def eprobSum : List (ENode × Nat × ℚ) → ℚ
  | [] => 0
  | (_, _, p) :: tl => p + eprobSum tl

mutual

/-- The spec's probability invariant: at every node of the evaluated tree
that has at least one child, the children's derived probabilities sum to
exactly 1. -/
def ENode.probSumOne : ENode → Prop
  | ⟨_, cs, _⟩ => (cs = [] ∨ eprobSum cs = 1) ∧ childrenSumOne cs

def childrenSumOne : List (ENode × Nat × ℚ) → Prop
  | [] => True
  | (c, _, _) :: tl => ENode.probSumOne c ∧ childrenSumOne tl

end

/-- The per-child contribution of the node-level distance, stated as in
the spec: `p1 ** 2` when the other node is `None` or lacks a same-labelled
child, `(p1 - p2) ** 2` when it has one. -/
def child_contrib (other : Option ENode) (entry : ENode × Nat × ℚ) : ℚ :=
  match other with
  | none => entry.2.2 ^ 2
  | some n2 =>
    match einfoLookup n2.children entry.1.name with
    | some found => (entry.2.2 - found.2.2) ^ 2
    | none => entry.2.2 ^ 2

/-- Count of the first same-labelled child entry, 0 when there is none. -/
def childCount (cs : List (Node × Nat)) (e : String) : Nat :=
  match childEntry cs e with
  | some (_, k) => k
  | none => 0

/-- How many children of a node carry the given label. -/
def countLabel : List (Node × Nat) → String → Nat
  | [], _ => 0
  | (c, _) :: tl, e => (if c.name = e then 1 else 0) + countLabel tl e

/-- Iterated `add_child` of a fresh node with one fixed label, as the
absorption loop performs it: N merges of the same single-step extension
into the same node. -/
def Node.mergeN : Node → String → Nat → Node
  | n, _, 0 => n
  | n, e, nn + 1 => Node.mergeN ((n.add_child (Node.mk e [] false)).1) e nn

/-- Structural induction for `Node` through the nested children list. -/
def Node.inductionOn {P : Node → Prop}
    (step : ∀ nm cs hc, (∀ c k, (c, k) ∈ cs → P c) → P (Node.mk nm cs hc)) :
    ∀ n, P n
  | .mk nm cs hc => step nm cs hc (fun c _ hmem => Node.inductionOn step c)
termination_by n => sizeOf n
decreasing_by
  have h1 := List.sizeOf_lt_of_mem hmem
  simp at h1 ⊢
  omega

/-- Structural induction for `ENode` through the nested children list. -/
def ENode.inductionOn {P : ENode → Prop}
    (step : ∀ nm cs hc, (∀ c k p, (c, k, p) ∈ cs → P c) → P (ENode.mk nm cs hc)) :
    ∀ n, P n
  | .mk nm cs hc => step nm cs hc (fun c _ _ hmem => ENode.inductionOn step c)
termination_by n => sizeOf n
decreasing_by
  have h1 := List.sizeOf_lt_of_mem hmem
  simp at h1 ⊢
  omega

/-- The concrete end-to-end scenario of the spec: depth 3, training
windows [A,B,C], [A,B,D], [A,B,C]; the first window initialises tree "A"
(via the `PST` constructor inside `fit`), the other two are absorbed by
`add_subchain`. -/
def c1_tree : PST :=
  ((PST.init_tree "A" ["B", "C"]).add_subchain ["A", "B", "D"]).add_subchain ["A", "B", "C"]

/-- The scenario tree after `evaluate_probability`. -/
def c1_etree : EPST :=
  c1_tree.evaluate_probability

/-- The scenario model: depth 3, holding the single evaluated tree "A". -/
def c1_model : PST_model :=
  { _depth := 3, trees := [c1_etree] }

/-- A small node used to instantiate the probability-sum invariant. -/
def c2_node : Node :=
  Node.mk "r" [(Node.mk "a" [] false, 2), (Node.mk "b" [] false, 1)] true

/-- A small node used to instantiate the merge-count property. -/
def c3_node : Node :=
  Node.mk "r" [(Node.mk "a" [] false, 3)] true

/-- A small evaluated node used to instantiate the node-distance formula. -/
def c4_node : ENode :=
  ENode.mk "r" [(ENode.mk "a" [] false, 1, (1 : ℚ) / 2), (ENode.mk "b" [] false, 1, (1 : ℚ) / 2)] true

/-- A small tree used to instantiate the self-distance property. -/
def c5_pst : PST :=
  PST.init_tree "r" ["s", "t"]

/-- A depth-2 model with no trees, used to instantiate windowing facts. -/
def c6_model : PST_model :=
  { _depth := 2, trees := [] }

/-- A depth-2 model with no trees, used to instantiate query error handling. -/
def c7_model : PST_model :=
  { _depth := 2, trees := [] }

/-- A depth-1 model with no trees, used to instantiate sequence scoring. -/
def c8_model : PST_model :=
  { _depth := 1, trees := [] }

/-- A small tree used to instantiate first-element insensitivity. -/
def c9_pst : PST :=
  PST.init_tree "A" ["B"]

/-- A depth-1 model holding one leaf tree named "x". -/
def c10_model : PST_model :=
  { _depth := 1, trees := [{ root := ENode.mk "x" [] false, name := "x", depth := 1, power := 0 }] }

/-- C6: the windowing routine `_get_subchains` applied to a sequence of
length L with configured depth d produces exactly max(L - d, 0) windows,
the i-th (0-based) being the slice `sequence[i : i+d]` of length d; a
sequence with L ≤ d produces no windows and raises no error, and the
final valid window starting at index L - d is never produced (no produced
window has that start index). -/
theorem claim_c6_windowing (m : PST_model) (chain : List String) :
    (m._get_subchains chain).length = chain.length - m._depth ∧
    ((m._get_subchains chain).length : ℤ) =
      max ((chain.length : ℤ) - (m._depth : ℤ)) 0 ∧
    (∀ i, i < chain.length - m._depth →
      (m._get_subchains chain)[i]? = some ((chain.drop i).take m._depth) ∧
      ((chain.drop i).take m._depth).length = m._depth) ∧
    (chain.length ≤ m._depth → m._get_subchains chain = []) ∧
    (∀ i, i < (m._get_subchains chain).length → i ≠ chain.length - m._depth) := by
  refine ⟨by simp [PST_model._get_subchains], ?_, ?_, ?_, ?_⟩
  · simp [PST_model._get_subchains]
    omega
  · intro i hi
    refine ⟨?_, ?_⟩
    · simp [PST_model._get_subchains, List.getElem?_map, List.getElem?_range, hi]
    · simp [List.length_take, List.length_drop]
      omega
  · intro h
    simp [PST_model._get_subchains, Nat.sub_eq_zero_of_le h]
  · intro i hi
    simp [PST_model._get_subchains] at hi
    omega

/-- Witness for C6 at a concrete model and chain. -/
theorem claim_c6_witness :
    (c6_model._get_subchains ["a", "b", "c"])[0]? =
      some (((["a", "b", "c"] : List String).drop 0).take c6_model._depth) ∧
    (((["a", "b", "c"] : List String).drop 0).take c6_model._depth).length =
      c6_model._depth :=
  (claim_c6_windowing c6_model ["a", "b", "c"]).2.2.1 0 (by decide)

/-- C7: `get_event_prob` never raises on its non-fatal error conditions:
a window whose length differs from the configured depth yields the
invalid sentinel (`Except.ok none`, never an error); a correct-length
window whose first element has no tree yields probability 0; and the walk
returns probability 0 at the first step whose label has no child. -/
theorem claim_c7_error_handling :
    (∀ (m : PST_model) (w : List String), w.length ≠ m._depth →
        m.get_event_prob w = Except.ok none) ∧
    (∀ (m : PST_model) (e : String) (rest : List String),
        (e :: rest).length = m._depth → m.get_PST_by_name e = none →
        m.get_event_prob (e :: rest) = Except.ok (some 0)) ∧
    (∀ (n : ENode) (e : String) (rest : List String) (prob : ℚ),
        n.get_child_by_name e = none →
        PST_model.walk_prob n (e :: rest) prob = 0) := by
  refine ⟨?_, ?_, ?_⟩
  · intro m w h
    unfold PST_model.get_event_prob
    rw [if_pos h]
  · intro m e rest h1 h2
    unfold PST_model.get_event_prob
    rw [if_neg (not_not_intro h1)]
    simp [h2]
  · intro n e rest prob h
    have h2 : einfoLookup n.children e = none := by
      cases heq : einfoLookup n.children e with
      | none => rfl
      | some v =>
        rw [ENode.get_child_by_name, heq] at h
        simp at h
    simp [PST_model.walk_prob, h2]

/-- Witness for C7 at a concrete model and too-short window. -/
theorem claim_c7_witness : c7_model.get_event_prob ["A"] = Except.ok none :=
  claim_c7_error_handling.1 c7_model ["A"] (by decide)

/-- C9: absorption ignores the chain's first element: two equal-length
chains with the same tail are absorbed identically (same structure, same
counts, same power), because `add_subchain` walks `subchain[1:]` only. -/
theorem claim_c9_first_element_ignored (t : PST) (c c' : List String)
    (hlen : c.length = c'.length) (htail : c.tail = c'.tail) :
    t.add_subchain c = t.add_subchain c' := by
  simp [PST.add_subchain, htail]

/-- Witness for C9: a chain routed under root "A" and one under root "Z"
with the same tail produce identical trees. -/
theorem claim_c9_witness :
    c9_pst.add_subchain ["A", "B"] = c9_pst.add_subchain ["Z", "B"] :=
  claim_c9_first_element_ignored c9_pst ["A", "B"] ["Z", "B"] rfl rfl

/-- C10: with configured depth 1, a query `[x]` for which a tree named `x`
exists returns exactly probability 1: the walk consumes no edges and the
running product stays at its initial value 1. -/
theorem claim_c10_trivial_walk (m : PST_model) (x : String) (pst : EPST)
    (hd : m._depth = 1) (hfind : m.get_PST_by_name x = some pst) :
    m.get_event_prob [x] = Except.ok (some 1) := by
  simp [PST_model.get_event_prob, hd, hfind, PST_model.walk_prob]

/-- Witness for C10 at a concrete one-tree model. -/
theorem claim_c10_witness : c10_model.get_event_prob ["x"] = Except.ok (some 1) :=
  claim_c10_trivial_walk c10_model "x"
    { root := ENode.mk "x" [] false, name := "x", depth := 1, power := 0 } rfl rfl

/-- The accumulator loop of the node-level distance equals the accumulator
plus the sum of the per-child contributions. -/
theorem node_distance_loop_eq (other : Option ENode) (a : ℚ)
    (cs : List (ENode × Nat × ℚ)) :
    node_distance_loop other a cs = a + (cs.map (child_contrib other)).sum := by
  induction cs generalizing a with
  | nil => simp [node_distance_loop]
  | cons hd tl ih =>
    obtain ⟨c1, k1, p1⟩ := hd
    cases other with
    | none =>
      simp [node_distance_loop, ih, child_contrib]
      ring
    | some n2 =>
      cases hfind : einfoLookup n2.children c1.name with
      | none =>
        simp [node_distance_loop, ih, child_contrib, hfind]
        ring
      | some found =>
        simp [node_distance_loop, ih, child_contrib, hfind]
        ring

/-- C4: the node-level distance of an evaluated node is 0 when the node
has no children, and otherwise the sum over this node's children only of
`(p1 - p2)^2` for label-matched children and `p1^2` when the other side is
`None` or lacks the label; against `None` it is the sum of the squares of
this node's children's probabilities. -/
theorem claim_c4_node_distance (n : ENode) (other : Option ENode) :
    n.get_node_distance other =
      (if n.has_children = true then (n.children.map (child_contrib other)).sum else 0) ∧
    (n.has_children = true →
      n.get_node_distance none = (n.children.map (fun x => x.2.2 ^ 2)).sum) := by
  have hmap : ∀ cs : List (ENode × Nat × ℚ),
      cs.map (child_contrib none) = cs.map (fun x => x.2.2 ^ 2) :=
    fun cs => List.map_congr_left (fun x _ => rfl)
  constructor
  · cases hc : n.has_children with
    | false => simp [ENode.get_node_distance, hc]
    | true =>
      simp [ENode.get_node_distance, hc, node_distance_loop_eq]
  · intro hc
    simp [ENode.get_node_distance, hc, node_distance_loop_eq, hmap]

/-- Witness for C4: distance to `None` at a concrete evaluated node. -/
theorem claim_c4_witness :
    c4_node.get_node_distance none = (c4_node.children.map (fun x => x.2.2 ^ 2)).sum :=
  (claim_c4_node_distance c4_node none).2 rfl

/-- C1: the concrete end-to-end scenario at depth 3.  After training on
the windows [A,B,C], [A,B,D], [A,B,C] (the first initialises tree "A",
the other two are absorbed), node B of tree "A" has exactly the two
children C (count 2) and D (count 1); after evaluation P(C|A,B) = 2/3 and
P(D|A,B) = 1/3; `get_event_prob` yields 2/3 on [A,B,C], 1/3 on [A,B,D],
0 on [A,B,x] for any label x other than C and D, and the invalid sentinel
on the length-2 window [A,B]. -/
theorem claim_c1_scenario :
    (c1_tree.root.get_child_by_name "B").map Node.children =
      some [(Node.mk "C" [] false, 2), (Node.mk "D" [] false, 1)] ∧
    (c1_etree.root.get_child_by_name "B").bind (fun b => b.childProb "C") =
      some ((2 : ℚ) / 3) ∧
    (c1_etree.root.get_child_by_name "B").bind (fun b => b.childProb "D") =
      some ((1 : ℚ) / 3) ∧
    c1_model.get_event_prob ["A", "B", "C"] = Except.ok (some ((2 : ℚ) / 3)) ∧
    c1_model.get_event_prob ["A", "B", "D"] = Except.ok (some ((1 : ℚ) / 3)) ∧
    (∀ x : String, x ≠ "C" → x ≠ "D" →
      c1_model.get_event_prob ["A", "B", x] = Except.ok (some 0)) ∧
    c1_model.get_event_prob ["A", "B"] = Except.ok none := by
  refine ⟨rfl, rfl, rfl, ?_, ?_, ?_, rfl⟩
  · rw [show c1_model.get_event_prob ["A", "B", "C"] =
          Except.ok (some (1 * ((3 : ℚ) / 3) * ((2 : ℚ) / 3))) from rfl]
    norm_num
  · rw [show c1_model.get_event_prob ["A", "B", "D"] =
          Except.ok (some (1 * ((3 : ℚ) / 3) * ((1 : ℚ) / 3))) from rfl]
    norm_num
  · intro x hC hD
    have hC2 : ¬(("C" : String) = x) := fun h => hC h.symm
    have hD2 : ¬(("D" : String) = x) := fun h => hD h.symm
    rw [show c1_model.get_event_prob ["A", "B", x] =
          Except.ok (some (PST_model.walk_prob
            (ENode.mk "B"
              [(ENode.mk "C" [] false, 2, (2 : ℚ) / 3),
               (ENode.mk "D" [] false, 1, (1 : ℚ) / 3)] true)
            [x] (1 * ((3 : ℚ) / 3)))) from rfl]
    simp [PST_model.walk_prob, einfoLookup, ENode.name, hC2, hD2]

/-- Witness for C1 at the concrete unseen label "Q". -/
theorem claim_c1_witness :
    c1_model.get_event_prob ["A", "B", "Q"] = Except.ok (some 0) :=
  claim_c1_scenario.2.2.2.2.2.1 "Q" (by decide) (by decide)

/-- Every window produced by `_get_subchains` has length exactly the
configured depth. -/
theorem subchains_mem_length (m : PST_model) (chain : List String) :
    ∀ s ∈ m._get_subchains chain, s.length = m._depth := by
  intro s hs
  simp [PST_model._get_subchains] at hs
  obtain ⟨i, hi, rfl⟩ := hs
  simp [List.length_take, List.length_drop]
  omega

/-- On a window of the configured length, with positive depth,
`get_event_prob` returns a probability (no sentinel, no error). -/
theorem get_event_prob_ok (m : PST_model) (s : List String)
    (h1 : s.length = m._depth) (h2 : 1 ≤ m._depth) :
    ∃ q : ℚ, m.get_event_prob s = Except.ok (some q) := by
  cases s with
  | nil =>
    exfalso
    simp at h1
    omega
  | cons e rest =>
    unfold PST_model.get_event_prob
    rw [if_neg (not_not_intro h1)]
    cases hf : m.get_PST_by_name e with
    | some pst => exact ⟨PST_model.walk_prob pst.root rest 1, by simp [hf]⟩
    | none => exact ⟨0, by simp [hf]⟩

/-- When every window scores without an error, the scoring loop collects
exactly the per-window results, in order. -/
theorem chain_prob_loop_ok (m : PST_model) :
    ∀ ws : List (List String),
      (∀ s ∈ ws, ∃ q : ℚ, m.get_event_prob s = Except.ok (some q)) →
      chain_prob_loop m ws =
        Except.ok (ws.map (fun s => (m.get_event_prob s).toOption)) := by
  intro ws
  induction ws with
  | nil =>
    intro _
    simp [chain_prob_loop]
  | cons s tl ih =>
    intro h
    obtain ⟨q, hq⟩ := h s (by simp)
    simp only [chain_prob_loop, List.map_cons]
    rw [hq, ih (fun x hx => h x (by simp [hx]))]
    simp [Except.toOption, hq]

/-- C8 (corrected): for a model of positive depth, `get_chain_prob`
returns (without raising) the list made of `fixed_depth` NaN sentinels
followed by exactly the `get_event_prob` results of the successive
windows; its length is `max(len(sequence), fixed_depth)`, which equals
`len(sequence)` only when the sequence is at least `fixed_depth` long. -/
theorem claim_c8_sequence_probability (m : PST_model) (chain : List String)
    (hdep : 1 ≤ m._depth) :
    m.get_chain_prob chain =
      Except.ok (List.replicate m._depth none ++
        (m._get_subchains chain).map (fun s => (m.get_event_prob s).toOption)) ∧
    (m.get_chain_prob chain).map List.length =
      Except.ok (max chain.length m._depth) := by
  have hok := chain_prob_loop_ok m (m._get_subchains chain)
    (fun s hs => get_event_prob_ok m s (subchains_mem_length m chain s hs) hdep)
  have h1 : m.get_chain_prob chain =
      Except.ok (List.replicate m._depth none ++
        (m._get_subchains chain).map (fun s => (m.get_event_prob s).toOption)) := by
    unfold PST_model.get_chain_prob
    rw [hok]
  refine ⟨h1, ?_⟩
  rw [h1]
  simp [Except.map, PST_model._get_subchains]
  omega

/-- Counterexample to C8 as stated: on the length-1 sequence ["A"] with
depth 3, `get_chain_prob` returns a list of length 3, not of length
`len(sequence)` = 1. -/
theorem claim_c8_counterexample :
    (PST_model.get_chain_prob { _depth := 3, trees := [] } ["A"]).map List.length ≠
      Except.ok (["A"] : List String).length := by
  rw [show (PST_model.get_chain_prob { _depth := 3, trees := [] } ["A"]).map List.length =
        Except.ok 3 from rfl]
  simp

/-- Witness for the corrected C8 at a concrete depth-1 model. -/
theorem claim_c8_witness :
    c8_model.get_chain_prob ["A", "B"] =
      Except.ok (List.replicate c8_model._depth none ++
        (c8_model._get_subchains ["A", "B"]).map
          (fun s => (c8_model.get_event_prob s).toOption)) :=
  (claim_c8_sequence_probability c8_model ["A", "B"] (by decide)).1

/-- Evaluated children sum their probabilities to the count total divided
by the passed denominator. -/
theorem eprobSum_eval (s : Nat) (cs : List (Node × Nat)) :
    eprobSum (evaluate_children_probability s cs) = (countSum cs : ℚ) / (s : ℚ) := by
  induction cs with
  | nil => simp [evaluate_children_probability, eprobSum, countSum]
  | cons hd tl ih =>
    obtain ⟨c, k⟩ := hd
    simp [evaluate_children_probability, eprobSum, countSum, ih, Nat.cast_add,
      div_add_div_same]

/-- A nonempty children list with positive counts has a positive total. -/
theorem countSum_pos (cs : List (Node × Nat)) (hpos : childrenPos cs = true)
    (hne : cs ≠ []) : 1 ≤ countSum cs := by
  cases cs with
  | nil => simp at hne
  | cons hd tl =>
    obtain ⟨c, k⟩ := hd
    simp [childrenPos] at hpos
    simp [countSum]
    omega

/-- Positive counts project to every member entry. -/
theorem childrenPos_mem :
    ∀ cs : List (Node × Nat), childrenPos cs = true →
      ∀ x ∈ cs, Node.posCounts x.1 = true := by
  intro cs
  induction cs with
  | nil => simp
  | cons hd tl ih =>
    obtain ⟨c, k⟩ := hd
    intro h x hx
    simp [childrenPos] at h
    rcases List.mem_cons.mp hx with hx | hx
    · subst hx
      exact h.1.2
    · exact ih h.2 x hx

/-- Core of C2: evaluation of a tree with positive counts yields, at every
node with children, probabilities summing to exactly 1. -/
theorem probSumOne_eval :
    ∀ n : Node, Node.posCounts n = true →
      ENode.probSumOne (evaluate_node_probability n) := by
  intro n
  induction n using Node.inductionOn with
  | step nm cs hc ih =>
    intro hpos
    have hpos2 : childrenPos cs = true := by simpa [Node.posCounts] using hpos
    simp only [evaluate_node_probability, ENode.probSumOne]
    constructor
    · by_cases hcs : cs = []
      · left
        subst hcs
        simp [evaluate_children_probability]
      · right
        rw [eprobSum_eval]
        have h1 := countSum_pos cs hpos2 hcs
        exact div_self (Nat.cast_ne_zero.mpr (by omega))
    · have hloop : ∀ cs2 : List (Node × Nat), (∀ x ∈ cs2, x ∈ cs) →
          childrenSumOne (evaluate_children_probability (countSum cs) cs2) := by
        intro cs2
        induction cs2 with
        | nil =>
          intro _
          simp [evaluate_children_probability, childrenSumOne]
        | cons hd2 tl2 ih2 =>
          intro hsub
          obtain ⟨c, k⟩ := hd2
          have hmem : (c, k) ∈ cs := hsub _ (by simp)
          simp only [evaluate_children_probability, childrenSumOne]
          exact ⟨ih c k hmem (childrenPos_mem cs hpos2 _ hmem),
            ih2 (fun x hx => hsub x (by simp [hx]))⟩
      exact hloop cs (fun x hx => hx)

/-- The initialising path carries only count-1 entries. -/
theorem init_path_posCounts (c0 : String) (rest : List String) :
    (Node.init_path c0 rest).posCounts = true := by
  induction rest generalizing c0 with
  | nil => simp [Node.init_path, Node.posCounts, childrenPos]
  | cons f tl ih => simp [Node.init_path, Node.posCounts, childrenPos, ih f]

/-- Positive counts are stable under the append of children lists. -/
theorem childrenPos_append (a b : List (Node × Nat)) :
    childrenPos (a ++ b) = (childrenPos a && childrenPos b) := by
  induction a with
  | nil => simp [childrenPos]
  | cons hd tl ih =>
    obtain ⟨c, k⟩ := hd
    simp [childrenPos, ih, Bool.and_assoc]

/-- Positive counts are stable under bumping the first matched entry and
rebuilding its child with a count-preserving function. -/
theorem childrenPos_updateFirst (e : String) (f : Node → Node)
    (hf : ∀ c, Node.posCounts c = true → Node.posCounts (f c) = true) :
    ∀ cs, childrenPos cs = true → childrenPos (updateFirst cs e f) = true := by
  intro cs
  induction cs with
  | nil =>
    intro h
    simpa [updateFirst] using h
  | cons hd tl ih =>
    intro h
    obtain ⟨c, k⟩ := hd
    simp [childrenPos] at h
    obtain ⟨⟨h1, h2⟩, h3⟩ := h
    by_cases hn : c.name = e
    · simp [updateFirst, hn, childrenPos, hf c h2, h3]
    · simp [updateFirst, hn, childrenPos, h1, h2, ih h3]

/-- Absorption preserves positive counts. -/
theorem posCounts_aux :
    ∀ (elems : List String) (n : Node),
      Node.posCounts n = true → (n.add_subchain_aux elems).posCounts = true := by
  intro elems
  induction elems with
  | nil =>
    intro n h
    simpa [Node.add_subchain_aux] using h
  | cons e rest ih =>
    intro n h
    cases n with
    | mk nm cs hc =>
      have hcs : childrenPos cs = true := by simpa [Node.posCounts] using h
      cases hfind : childEntry cs e with
      | some entry =>
        simp [Node.add_subchain_aux, Node.children, hfind, Node.posCounts]
        exact childrenPos_updateFirst e _ (fun c hc2 => ih c hc2) cs hcs
      | none =>
        simp [Node.add_subchain_aux, Node.children, hfind, Node.posCounts,
          childrenPos_append]
        refine ⟨hcs, ?_⟩
        simp [childrenPos]
        exact ih _ (by simp [Node.posCounts, childrenPos])

/-- C2: after the evaluation pass, every node with at least one child has
children probabilities summing to exactly 1 (in exact rational
arithmetic), given the positive-count invariant that actual trees satisfy:
it holds for every freshly initialised tree and is preserved by every
absorption. -/
theorem claim_c2_probability_sums :
    (∀ n : Node, Node.posCounts n = true →
      ENode.probSumOne (evaluate_node_probability n)) ∧
    (∀ (c0 : String) (rest : List String),
      (PST.init_tree c0 rest).root.posCounts = true) ∧
    (∀ (t : PST) (c : List String), t.root.posCounts = true →
      (t.add_subchain c).root.posCounts = true) :=
  ⟨probSumOne_eval, fun c0 rest => init_path_posCounts c0 rest,
    fun t c h => posCounts_aux c.tail t.root h⟩

/-- Witness for C2 at a concrete two-child node. -/
theorem claim_c2_witness :
    ENode.probSumOne (evaluate_node_probability c2_node) :=
  claim_c2_probability_sums.1 c2_node (by decide)

/-- Bumping the matched entry raises the looked-up count by one and keeps
the child node. -/
theorem childEntry_incFirst (cs : List (Node × Nat)) (e : String) (c : Node) (k : Nat)
    (h : childEntry cs e = some (c, k)) :
    childEntry (incFirst cs e) e = some (c, k + 1) := by
  induction cs with
  | nil => simp [childEntry] at h
  | cons hd tl ih =>
    obtain ⟨c0, k0⟩ := hd
    by_cases hn : c0.name = e
    · simp [childEntry, hn] at h
      obtain ⟨h1, h2⟩ := h
      subst h1
      subst h2
      simp [incFirst, hn, childEntry]
    · simp [childEntry, hn] at h
      simp [incFirst, hn, childEntry, ih h]

/-- Bumping a count never changes the label sequence. -/
theorem namesOf_incFirst (cs : List (Node × Nat)) (e : String) :
    namesOf (incFirst cs e) = namesOf cs := by
  induction cs with
  | nil => simp [incFirst]
  | cons hd tl ih =>
    obtain ⟨c0, k0⟩ := hd
    by_cases hn : c0.name = e
    · simp [incFirst, hn, namesOf]
    · simp [incFirst, hn, namesOf] at ih ⊢
      exact ih

/-- Bumping a count never changes how many children carry any label. -/
theorem countLabel_incFirst (cs : List (Node × Nat)) (e e' : String) :
    countLabel (incFirst cs e) e' = countLabel cs e' := by
  induction cs with
  | nil => simp [incFirst]
  | cons hd tl ih =>
    obtain ⟨c0, k0⟩ := hd
    by_cases hn : c0.name = e
    · simp [incFirst, hn, countLabel]
    · simp [incFirst, hn, countLabel, ih]

/-- Bumping a count keeps every subtree intact. -/
theorem childrenWf_incFirst (cs : List (Node × Nat)) (e : String) :
    childrenWf (incFirst cs e) = childrenWf cs := by
  induction cs with
  | nil => simp [incFirst]
  | cons hd tl ih =>
    obtain ⟨c0, k0⟩ := hd
    by_cases hn : c0.name = e
    · simp [incFirst, hn, childrenWf]
    · simp [incFirst, hn, childrenWf, ih]

/-- Appending a fresh entry for an absent label makes it the looked-up
entry. -/
theorem childEntry_append_absent (cs : List (Node × Nat)) (e : String) (cand : Node)
    (hc : cand.name = e) (h : childEntry cs e = none) :
    childEntry (cs ++ [(cand, 1)]) e = some (cand, 1) := by
  induction cs with
  | nil => simp [childEntry, hc]
  | cons hd tl ih =>
    obtain ⟨c0, k0⟩ := hd
    by_cases hn : c0.name = e
    · simp [childEntry, hn] at h
    · simp [childEntry, hn] at h ⊢
      exact ih h

/-- Label multiplicity distributes over appended children lists. -/
theorem countLabel_append (a b : List (Node × Nat)) (e : String) :
    countLabel (a ++ b) e = countLabel a e + countLabel b e := by
  induction a with
  | nil => simp [countLabel]
  | cons hd tl ih =>
    obtain ⟨c0, k0⟩ := hd
    simp [countLabel, ih]
    omega

/-- A successful lookup means at least one child carries the label. -/
theorem childEntry_some_countLabel_pos (cs : List (Node × Nat)) (e : String)
    (x : Node × Nat) (h : childEntry cs e = some x) : 1 ≤ countLabel cs e := by
  induction cs with
  | nil => simp [childEntry] at h
  | cons hd tl ih =>
    obtain ⟨c0, k0⟩ := hd
    by_cases hn : c0.name = e
    · simp [countLabel, hn]
    · simp [childEntry, hn] at h
      simp [countLabel, hn]
      exact ih h

/-- A failed lookup means no child carries the label. -/
theorem childEntry_none_countLabel_zero (cs : List (Node × Nat)) (e : String)
    (h : childEntry cs e = none) : countLabel cs e = 0 := by
  induction cs with
  | nil => simp [countLabel]
  | cons hd tl ih =>
    obtain ⟨c0, k0⟩ := hd
    by_cases hn : c0.name = e
    · simp [childEntry, hn] at h
    · simp [childEntry, hn] at h
      simp [countLabel, hn, ih h]

/-- One merge step on a node that already has the label: the children
become the count-bumped list. -/
theorem add_child_present (n : Node) (e : String) (x : Node × Nat)
    (h : childEntry n.children e = some x) :
    (n.add_child (Node.mk e [] false)).1 =
      Node.mk n.name (incFirst n.children e) true := by
  unfold Node.add_child
  rw [show (Node.mk e [] false).name = e from rfl, Node.get_child_by_name, h]
  rfl

/-- One merge step on a node without the label: the fresh candidate is
appended with count 1. -/
theorem add_child_absent (n : Node) (e : String)
    (h : childEntry n.children e = none) :
    (n.add_child (Node.mk e [] false)).1 =
      Node.mk n.name (n.children ++ [(Node.mk e [] false, 1)]) true := by
  unfold Node.add_child
  rw [show (Node.mk e [] false).name = e from rfl, Node.get_child_by_name, h]
  rfl

/-- Iterated merges of a label that is already present keep adding to the
same looked-up entry and never change label multiplicities. -/
theorem mergeN_present (e : String) :
    ∀ (nn : Nat) (n : Node) (c : Node) (k : Nat),
      childEntry n.children e = some (c, k) →
      childEntry (n.mergeN e nn).children e = some (c, k + nn) ∧
      (∀ e' : String, countLabel (n.mergeN e nn).children e' = countLabel n.children e') := by
  intro nn
  induction nn with
  | zero =>
    intro n c k h
    simp [Node.mergeN, h]
  | succ m ihm =>
    intro n c k h
    rw [Node.mergeN, add_child_present n e (c, k) h]
    have h2 : childEntry (Node.mk n.name (incFirst n.children e) true).children e =
        some (c, k + 1) := by
      simpa [Node.children] using childEntry_incFirst n.children e c k h
    obtain ⟨ha, hb⟩ := ihm _ c (k + 1) h2
    constructor
    · rw [ha]
      have : k + 1 + m = k + (m + 1) := by omega
      rw [this]
    · intro e'
      rw [hb e']
      simp [Node.children, countLabel_incFirst]


/-- String membership distributes over appended lists. -/
theorem containsStr_append (a b : List String) (x : String) :
    containsStr (a ++ b) x = (containsStr a x || containsStr b x) := by
  induction a with
  | nil => simp [containsStr]
  | cons y tl ih => simp [containsStr, ih, Bool.or_assoc]

/-- Appending one string not yet present keeps the list duplicate free. -/
theorem nodupNames_append_single (l : List String) (x : String)
    (hnd : nodupNames l = true) (hni : containsStr l x = false) :
    nodupNames (l ++ [x]) = true := by
  induction l with
  | nil => simp [nodupNames, containsStr]
  | cons y tl ih =>
    simp [nodupNames] at hnd
    simp [containsStr] at hni
    simp [nodupNames, containsStr_append, hnd.1, containsStr, ih hnd.2 hni.2]
    intro hxy
    exact absurd hxy.symm hni.1

/-- A failed lookup means the label is absent from the label list. -/
theorem childEntry_none_notmem (cs : List (Node × Nat)) (e : String)
    (h : childEntry cs e = none) : containsStr (namesOf cs) e = false := by
  induction cs with
  | nil => simp [namesOf, containsStr]
  | cons hd tl ih =>
    obtain ⟨c0, k0⟩ := hd
    by_cases hn : c0.name = e
    · simp [childEntry, hn] at h
    · simp [childEntry, hn] at h
      have htl := ih h
      simp [namesOf] at htl
      simp [namesOf, containsStr, hn, htl]

/-- Subtree well-formedness distributes over appended children lists. -/
theorem childrenWf_append (a b : List (Node × Nat)) :
    childrenWf (a ++ b) = (childrenWf a && childrenWf b) := by
  induction a with
  | nil => simp [childrenWf]
  | cons hd tl ih =>
    obtain ⟨c0, k0⟩ := hd
    simp [childrenWf, ih, Bool.and_assoc]

/-- A successful lookup determines the looked-up count. -/
theorem childCount_eq_of_entry (cs : List (Node × Nat)) (e : String) (c : Node)
    (k : Nat) (h : childEntry cs e = some (c, k)) : childCount cs e = k := by
  simp [childCount, h]

/-- A failed lookup makes the looked-up count 0. -/
theorem childCount_eq_of_none (cs : List (Node × Nat)) (e : String)
    (h : childEntry cs e = none) : childCount cs e = 0 := by
  simp [childCount, h]

/-- C3: `add_child` merges by label: an existing same-label child is
returned with its count bumped and the labels unchanged; an absent label
installs the candidate at the end with count 1 and returns it.  Hence N
merges of one label into a node that had at most one child with that
label leave exactly one child with that label, with count raised by
exactly N, and the duplicate-free-siblings invariant is preserved by
merging a fresh candidate. -/
theorem claim_c3_merge_child :
    (∀ self cand child : Node, self.get_child_by_name cand.name = some child →
        (self.add_child cand).2 = child ∧
        childCount (self.add_child cand).1.children cand.name =
          childCount self.children cand.name + 1 ∧
        namesOf (self.add_child cand).1.children = namesOf self.children) ∧
    (∀ self cand : Node, self.get_child_by_name cand.name = none →
        (self.add_child cand).2 = cand ∧
        (self.add_child cand).1.children = self.children ++ [(cand, 1)]) ∧
    (∀ (n : Node) (e : String) (nn : Nat), 1 ≤ nn →
        countLabel n.children e ≤ 1 →
        countLabel (n.mergeN e nn).children e = 1 ∧
        childCount (n.mergeN e nn).children e = childCount n.children e + nn) ∧
    (∀ (n : Node) (e : String), Node.wf n = true →
        Node.wf (n.add_child (Node.mk e [] false)).1 = true) := by
  refine ⟨?_, ?_, ?_, ?_⟩
  · intro self cand child h
    obtain ⟨⟨c0, k0⟩, hent, hfst⟩ := Option.map_eq_some'.mp h
    have hchild : c0 = child := hfst
    subst hchild
    unfold Node.add_child
    rw [h]
    refine ⟨rfl, ?_, ?_⟩
    · rw [show (Node.mk self.name (incFirst self.children cand.name) true).children =
            incFirst self.children cand.name from rfl]
      rw [childCount_eq_of_entry _ _ _ _ (childEntry_incFirst _ _ _ _ hent),
        childCount_eq_of_entry _ _ _ _ hent]
    · rw [show (Node.mk self.name (incFirst self.children cand.name) true).children =
            incFirst self.children cand.name from rfl]
      exact namesOf_incFirst self.children cand.name
  · intro self cand h
    unfold Node.add_child
    rw [h]
    exact ⟨rfl, rfl⟩
  · intro n e nn h1 h2
    cases nn with
    | zero => omega
    | succ m =>
      cases hfind : childEntry n.children e with
      | some entry =>
        obtain ⟨c, k⟩ := entry
        obtain ⟨ha, hb⟩ := mergeN_present e (m + 1) n c k hfind
        have hpos := childEntry_some_countLabel_pos n.children e (c, k) hfind
        refine ⟨by rw [hb e]; omega, ?_⟩
        rw [childCount_eq_of_entry _ _ _ _ ha, childCount_eq_of_entry _ _ _ _ hfind]
      | none =>
        rw [Node.mergeN, add_child_absent n e hfind]
        have hstep : childEntry (Node.mk n.name
            (n.children ++ [(Node.mk e [] false, 1)]) true).children e =
            some (Node.mk e [] false, 1) := by
          simpa [Node.children] using
            childEntry_append_absent n.children e (Node.mk e [] false) rfl hfind
        obtain ⟨ha, hb⟩ := mergeN_present e m _ _ 1 hstep
        constructor
        · rw [hb e]
          rw [show (Node.mk n.name (n.children ++ [(Node.mk e [] false, 1)]) true).children =
                n.children ++ [(Node.mk e [] false, 1)] from rfl]
          rw [countLabel_append, childEntry_none_countLabel_zero n.children e hfind]
          simp [countLabel, Node.name]
        · rw [childCount_eq_of_entry _ _ _ _ ha,
            childCount_eq_of_none _ _ hfind]
          omega
  · intro n e hwf
    cases n with
    | mk nm cs hc =>
      have hparts : nodupNames (namesOf cs) = true ∧ childrenWf cs = true := by
        simpa [Node.wf] using hwf
      cases hfind : childEntry cs e with
      | some entry =>
        rw [add_child_present (Node.mk nm cs hc) e entry
          (by simpa [Node.children] using hfind)]
        simp [Node.wf, Node.children, Node.name, namesOf_incFirst,
          childrenWf_incFirst, hparts.1, hparts.2]
      | none =>
        rw [add_child_absent (Node.mk nm cs hc) e
          (by simpa [Node.children] using hfind)]
        have hnames : namesOf (cs ++ [(Node.mk e [] false, 1)]) =
            namesOf cs ++ [e] := by
          simp [namesOf, Node.name]
        have hnd2 : nodupNames (namesOf cs ++ [e]) = true :=
          nodupNames_append_single (namesOf cs) e hparts.1
            (childEntry_none_notmem cs e hfind)
        have hwf2 : childrenWf (cs ++ [(Node.mk e [] false, 1)]) = true := by
          rw [childrenWf_append, hparts.2]
          simp [childrenWf, Node.wf, namesOf, nodupNames]
        simp only [Node.wf, Node.children, hnames]
        rw [hnd2, hwf2]
        rfl

/-- Witness for C3: two merges of the absent label "b" into a concrete
node leave one "b" child of count 2. -/
theorem claim_c3_witness :
    countLabel (c3_node.mergeN "b" 2).children "b" = 1 ∧
    childCount (c3_node.mergeN "b" 2).children "b" =
      childCount c3_node.children "b" + 2 :=
  claim_c3_merge_child.2.2.1 c3_node "b" 2 (by decide) (by decide)

/-- The decidable string membership test agrees with list membership. -/
theorem containsStr_iff_mem (l : List String) (x : String) :
    containsStr l x = true ↔ x ∈ l := by
  induction l with
  | nil => simp [containsStr]
  | cons y tl ih =>
    simp only [containsStr, Bool.or_eq_true, decide_eq_true_eq, ih, List.mem_cons]
    constructor
    · rintro (h | h)
      · exact Or.inl h.symm
      · exact Or.inr h
    · rintro (h | h)
      · exact Or.inl h.symm
      · exact Or.inr h

/-- With duplicate-free labels, looking up a member entry's own label
finds exactly that entry. -/
theorem einfoLookup_mem_self :
    ∀ cs : List (ENode × Nat × ℚ), nodupNames (enamesOf cs) = true →
      ∀ x ∈ cs, einfoLookup cs x.1.name = some x := by
  intro cs
  induction cs with
  | nil => simp
  | cons hd tl ih =>
    intro hnd x hx
    obtain ⟨c, k, p⟩ := hd
    rw [show enamesOf ((c, k, p) :: tl) = c.name :: enamesOf tl from rfl] at hnd
    simp only [nodupNames, Bool.and_eq_true, Bool.not_eq_true'] at hnd
    obtain ⟨hni, hnd2⟩ := hnd
    rcases List.mem_cons.mp hx with hx1 | hx1
    · subst hx1
      simp [einfoLookup]
    · have hmemname : x.1.name ∈ enamesOf tl := by
        rw [show enamesOf tl = tl.map (fun p => p.1.name) from rfl]
        exact List.mem_map.mpr ⟨x, hx1, rfl⟩
      have hne : ¬ c.name = x.1.name := by
        intro heq
        rw [heq] at hni
        rw [(containsStr_iff_mem (enamesOf tl) x.1.name).mpr hmemname] at hni
        simp at hni
      simp [einfoLookup, hne]
      exact ih hnd2 x hx1

/-- The evaluated-tree invariant projects to every member child. -/
theorem echildrenWf_mem :
    ∀ cs : List (ENode × Nat × ℚ), echildrenWf cs = true →
      ∀ x ∈ cs, ENode.ewf x.1 = true := by
  intro cs
  induction cs with
  | nil => simp
  | cons hd tl ih =>
    obtain ⟨c, k, p⟩ := hd
    intro h x hx
    simp [echildrenWf] at h
    rcases List.mem_cons.mp hx with hx1 | hx1
    · subst hx1
      exact h.1
    · exact ih h.2 x hx1

/-- A node with duplicate-free child labels has node-level distance 0 to
itself: every child is matched with itself and contributes
`(p - p)^2 = 0`. -/
theorem node_distance_self (nm : String) (cs : List (ENode × Nat × ℚ)) (hc : Bool)
    (hnd : nodupNames (enamesOf cs) = true) :
    (ENode.mk nm cs hc).get_node_distance (some (ENode.mk nm cs hc)) = 0 := by
  unfold ENode.get_node_distance
  cases hc with
  | false => simp [ENode.has_children]
  | true =>
    rw [if_neg (by simp [ENode.has_children])]
    rw [show (ENode.mk nm cs true).children = cs from rfl]
    rw [node_distance_loop_eq]
    have hz : ∀ y ∈ cs.map (child_contrib (some (ENode.mk nm cs true))), y = 0 := by
      intro y hy
      obtain ⟨x, hx, rfl⟩ := List.mem_map.mp hy
      have hlook := einfoLookup_mem_self cs hnd x hx
      simp [child_contrib, ENode.children, hlook]
    rw [List.sum_eq_zero hz]
    norm_num

/-- A tree whose nodes all carry duplicate-free child labels has
tree-level distance 0 to itself, whatever the accumulator. -/
theorem tree_distance_self :
    ∀ n : ENode, ENode.ewf n = true →
      ∀ d : ℚ, EPST.get_node_distance n (some n) d = d := by
  intro n
  induction n using ENode.inductionOn with
  | step nm cs hc ih =>
    intro hwf d
    have hparts : nodupNames (enamesOf cs) = true ∧ echildrenWf cs = true := by
      simpa [ENode.ewf] using hwf
    simp only [EPST.get_node_distance]
    cases hc with
    | false => simp
    | true =>
      rw [if_neg (by decide)]
      rw [node_distance_self nm cs true hparts.1, add_zero]
      have hloop : ∀ cs2 : List (ENode × Nat × ℚ), (∀ x ∈ cs2, x ∈ cs) →
          EPST.tree_distance_loop cs2 (some (ENode.mk nm cs true)) d = d := by
        intro cs2
        induction cs2 with
        | nil =>
          intro _
          simp only [EPST.tree_distance_loop]
        | cons hd tl ihl =>
          intro hsub
          obtain ⟨c1, k1, p1⟩ := hd
          have hmem : (c1, k1, p1) ∈ cs := hsub _ (by simp)
          have hlook := einfoLookup_mem_self cs hparts.1 _ hmem
          have hchild : (ENode.mk nm cs true).get_child_by_name c1.name = some c1 := by
            simp [ENode.get_child_by_name, ENode.children, hlook]
          simp only [EPST.tree_distance_loop, hchild]
          rw [ih c1 k1 p1 hmem (echildrenWf_mem cs hparts.2 _ hmem) d]
          exact ihl (fun x hx => hsub x (by simp [hx]))
      exact hloop cs (fun x hx => hx)

/-- Evaluation keeps each node's label. -/
theorem eval_name (c : Node) : (evaluate_node_probability c).name = c.name := by
  cases c with
  | mk nm cs hc => simp [evaluate_node_probability, ENode.name, Node.name]

/-- Evaluation keeps the label sequence of a children list. -/
theorem enames_eval (s : Nat) :
    ∀ cs : List (Node × Nat),
      enamesOf (evaluate_children_probability s cs) = namesOf cs := by
  intro cs
  induction cs with
  | nil => simp [evaluate_children_probability, enamesOf, namesOf]
  | cons hd tl ih =>
    obtain ⟨c, k⟩ := hd
    simp [evaluate_children_probability, enamesOf, namesOf] at ih ⊢
    exact ⟨eval_name c, ih⟩

/-- The raw-tree invariant projects to every member child. -/
theorem childrenWf_mem :
    ∀ cs : List (Node × Nat), childrenWf cs = true →
      ∀ x ∈ cs, Node.wf x.1 = true := by
  intro cs
  induction cs with
  | nil => simp
  | cons hd tl ih =>
    obtain ⟨c, k⟩ := hd
    intro h x hx
    simp [childrenWf] at h
    rcases List.mem_cons.mp hx with hx1 | hx1
    · subst hx1
      exact h.1
    · exact ih h.2 x hx1

/-- Evaluation preserves the duplicate-free-siblings invariant. -/
theorem ewf_eval :
    ∀ n : Node, Node.wf n = true →
      ENode.ewf (evaluate_node_probability n) = true := by
  intro n
  induction n using Node.inductionOn with
  | step nm cs hc ih =>
    intro hwf
    have hparts : nodupNames (namesOf cs) = true ∧ childrenWf cs = true := by
      simpa [Node.wf] using hwf
    simp only [evaluate_node_probability, ENode.ewf, Bool.and_eq_true]
    constructor
    · rw [enames_eval]
      exact hparts.1
    · have hloop : ∀ cs2 : List (Node × Nat), (∀ x ∈ cs2, x ∈ cs) →
          echildrenWf (evaluate_children_probability (countSum cs) cs2) = true := by
        intro cs2
        induction cs2 with
        | nil =>
          intro _
          simp [evaluate_children_probability, echildrenWf]
        | cons hd tl ihl =>
          intro hsub
          obtain ⟨c, k⟩ := hd
          have hmem : (c, k) ∈ cs := hsub _ (by simp)
          simp only [evaluate_children_probability, echildrenWf, Bool.and_eq_true]
          exact ⟨ih c k hmem (childrenWf_mem cs hparts.2 _ hmem),
            ihl (fun x hx => hsub x (by simp [hx]))⟩
      exact hloop cs (fun x hx => hx)

/-- C5: an evaluated tree with duplicate-free sibling labels (as every
tree produced by the library is, and as evaluation preserves) is at
tree-level distance 0 from itself: at every recursion step each node is
paired with itself, so every matched contribution is `(p - p)^2 = 0`. -/
theorem claim_c5_self_distance :
    (∀ t : EPST, ENode.ewf t.root = true → t.get_distance t = 0) ∧
    (∀ p : PST, Node.wf p.root = true →
      ENode.ewf (p.evaluate_probability).root = true) := by
  constructor
  · intro t h
    unfold EPST.get_distance
    exact tree_distance_self t.root h 0
  · intro p h
    exact ewf_eval p.root h

/-- Witness for C5 at a concrete evaluated three-node path tree. -/
theorem claim_c5_witness :
    (c5_pst.evaluate_probability).get_distance (c5_pst.evaluate_probability) = 0 :=
  claim_c5_self_distance.1 (c5_pst.evaluate_probability) (by decide)
